import Mathlib

/-!
Verification development for the FinTrack frontend (personal finance tracker).

The definitions below are a shallow embedding of the client-side data
pipeline of the transaction table and its sibling components:

* `processData` — the Category Aggregator (PieChart/dataProcessor.js);
* `filterData`, `handleSort`, `handleDeleteTransaction`, `fetchData` —
  the table component (FinTrackTable/FinTrackTable.js) and the App-level
  load (App.js);
* `totalSpent`, `percentageOf`, `getColor` — the Spending Limit Gauge
  (SpendingLimit.js);
* `generateResponse`, `classifyResponse` — the chat relay client
  (chatbotUtils.js / ChatBot.js).

Dynamically typed JavaScript field values are modelled by `JsVal`
(number, string, or `undefined`); JavaScript numbers are modelled as
rationals, with `Option ℚ` where `NaN` can arise (`none` = `NaN`).
Asynchronous HTTP calls are modelled by passing the call outcome
(`Except` of an error, or a status code plus payload) as an argument.
-/

/-- Model of a dynamically typed JavaScript field value as stored in a
transaction record: a number, a string, or `undefined` (missing field). -/
inductive JsVal where
  | num (q : ℚ)
  | str (s : String)
  | undef
deriving DecidableEq, Repr

/-- The value is a number. -/
def JsVal.isNum : JsVal → Bool
  | .num _ => true
  | _ => false

/-- The value is a string. -/
def JsVal.isStr : JsVal → Bool
  | .str _ => true
  | _ => false

/-- Numeric value of a decimal digit character. -/
def digitVal (c : Char) : ℕ := c.toNat - '0'.toNat

/-- Natural number denoted by a list of decimal digits, most significant first. -/
def natOfDigits (l : List Char) : ℕ := l.foldl (fun acc c => 10 * acc + digitVal c) 0

/-- Rational value of the decimal numeral `ip.fp` (integer part, fraction part). -/
def decValue (ip fp : List Char) : ℚ :=
  (natOfDigits ip : ℚ) + (natOfDigits fp : ℚ) / (10 ^ fp.length)

/-- Parse a longest unsigned decimal numeral (`digits`, `digits.digits`,
`.digits` or `digits.`) from the front of a character list, returning its value
and the unconsumed rest; `none` when no digit is found. -/
def parseDecCore (l : List Char) : Option (ℚ × List Char) :=
  let p1 := l.span Char.isDigit
  match p1.2 with
  | '.' :: r2 =>
      let p2 := r2.span Char.isDigit
      if p1.1.isEmpty && p2.1.isEmpty then none else some (decValue p1.1 p2.1, p2.2)
  | _ => if p1.1.isEmpty then none else some (decValue p1.1 [], p1.2)

/-- Parse an optionally signed decimal numeral from the front of a character list. -/
def parseSignedDec (l : List Char) : Option (ℚ × List Char) :=
  match l with
  | '-' :: r => (parseDecCore r).map (fun p => (-p.1, p.2))
  | '+' :: r => parseDecCore r
  | _ => parseDecCore l

/-- Model of JavaScript `parseFloat`: skip leading spaces, read the longest
signed decimal prefix, ignore any trailing garbage; `none` models `NaN`.
Exponent notation and `Infinity` literals are outside the model. -/
def jsParseFloat (s : String) : Option ℚ :=
  (parseSignedDec (s.toList.dropWhile (· == ' '))).map Prod.fst

/-- Model of the JavaScript `Number()` coercion of a string: the whole trimmed
string must be a signed decimal numeral; the empty (or all-space) string is 0;
`none` models `NaN`. -/
def jsStringToNumber (s : String) : Option ℚ :=
  let t := s.toList.dropWhile (· == ' ')
  if t.isEmpty then some 0
  else
    match parseSignedDec t with
    | some (q, []) => some q
    | _ => none

/-- JavaScript `ToNumber` on a field value (`none` = `NaN`; `undefined`
coerces to `NaN`). -/
def jsToNumber : JsVal → Option ℚ
  | .num q => some q
  | .str s => jsStringToNumber s
  | .undef => none

/-- Numeric comparison of two `ToNumber` results: false when either is `NaN`. -/
def numLtB (o1 o2 : Option ℚ) : Bool :=
  match o1, o2 with
  | some x, some y => decide (x < y)
  | _, _ => false

/-- Model of the JavaScript `<` operator on field values (abstract relational
comparison): string against string compares lexicographically; any other
combination coerces both sides with `ToNumber` and compares numerically, any
`NaN` making the comparison false. -/
def jsLt : JsVal → JsVal → Bool
  | .str a, .str b => decide (a < b)
  | a, b => numLtB (jsToNumber a) (jsToNumber b)

/-- JavaScript truthiness of a field value (`0`, `""` and `undefined` are falsy). -/
def jsTruthy : JsVal → Bool
  | .num q => decide (q ≠ 0)
  | .str s => decide (s ≠ "")
  | .undef => false

/-- The first list is a leading segment of the second (character lists). -/
def startsWithCL : List Char → List Char → Bool
  | [], _ => true
  | _ :: _, [] => false
  | p :: ps, c :: cs => p == c && startsWithCL ps cs

/-- The first list occurs contiguously somewhere in the second. -/
def containsCL (pat : List Char) : List Char → Bool
  | [] => startsWithCL pat []
  | c :: t => startsWithCL pat (c :: t) || containsCL pat t

/-- Model of JavaScript `String.prototype.includes`. -/
def jsIncludes (s pat : String) : Bool := containsCL pat.toList s.toList

/-- Model of JavaScript `String.prototype.startsWith`. -/
def jsStartsWith (s pat : String) : Bool := startsWithCL pat.toList s.toList

/-- Model of JavaScript `String.prototype.toLowerCase` (ASCII case folding). -/
def jsToLower (s : String) : String := String.mk (s.data.map Char.toLower)

/-- Chronologically ordered integer code of a calendar date. -/
def dateCode (y m d : ℕ) : ℤ := (y * 10000 + m * 100 + d : ℕ)

/-- Parse an ISO `YYYY-MM-DD` date string into its chronological code. -/
def parseIsoDate (s : String) : Option ℤ :=
  match s.toList with
  | [y1, y2, y3, y4, '-', m1, m2, '-', d1, d2] =>
      if ([y1, y2, y3, y4, m1, m2, d1, d2].all Char.isDigit) then
        let m := natOfDigits [m1, m2]
        let d := natOfDigits [d1, d2]
        if 1 ≤ m ∧ m ≤ 12 ∧ 1 ≤ d ∧ d ≤ 31 then
          some (dateCode (natOfDigits [y1, y2, y3, y4]) m d)
        else none
      else none
  | _ => none

/-- Model of `new Date(v)` on a field value, as a chronological code; `none`
models an Invalid Date (whose comparisons are all false). The table stores
dates as ISO `YYYY-MM-DD` strings, the only format modelled as valid. -/
def jsNewDate : JsVal → Option ℤ
  | .str s => parseIsoDate s
  | _ => none

/-- One transaction record. `Description` is a required free-text string (the
table calls `toLowerCase()` on it unconditionally); the other fields are
dynamically typed and may be missing (`JsVal.undef`). -/
structure Record where
  Date : JsVal
  Description : String
  Amount : JsVal
  Balance : JsVal
  Category : JsVal
deriving DecidableEq, Repr

/-- Stable insertion of `a` into `l`: `a` is placed before the first element
`b` with `le a b`. -/
def insertLe {α : Type} (le : α → α → Bool) (a : α) : List α → List α
  | [] => [a]
  | b :: t => if le a b then a :: b :: t else b :: insertLe le a t

/-- Stable insertion sort. `Array.prototype.sort` is modelled as a stable sort
consistent with the comparator (stability is guaranteed by the language since
ES2019; the concrete algorithm is unobservable for consistent comparators). -/
def stableSort {α : Type} (le : α → α → Bool) : List α → List α
  | [] => []
  | a :: t => insertLe le a (stableSort le t)

/-- `filterData` from FinTrackTable.js (lines 96-115): apply the search-term
filter (only when the term is non-empty, i.e. truthy), then the date-range
filter (only when both bounds are set). Range bounds are the chronological
codes of the two picked dates. -/
def filterData (data : List Record) (searchTerm : String)
    (rangeStart rangeEnd : Option ℤ) : List Record :=
  let d1 :=
    if searchTerm ≠ "" then
      data.filter (fun t => jsIncludes (jsToLower t.Description) (jsToLower searchTerm))
    else data
  match rangeStart, rangeEnd with
  | some s, some e =>
      d1.filter (fun t =>
        match jsNewDate t.Date with
        | some ts => decide (s ≤ ts) && decide (ts ≤ e)
        | none => false)
  | _, _ => d1

/-- Spec-side predicate: the record's description contains the search term
case-insensitively, an empty term imposing no filter. -/
def matchesSearch (searchTerm : String) (t : Record) : Bool :=
  searchTerm == "" || jsIncludes (jsToLower t.Description) (jsToLower searchTerm)

/-- Spec-side predicate: the record's date lies within the inclusive range,
a partial range (fewer than both bounds set) imposing no filter. -/
def matchesDateRange (rangeStart rangeEnd : Option ℤ) (t : Record) : Bool :=
  match rangeStart, rangeEnd with
  | some s, some e =>
      match jsNewDate t.Date with
      | some ts => decide (s ≤ ts) && decide (ts ≤ e)
      | none => false
  | _, _ => true

/-- Fixed chart palette, `COLORS` in PieChart/dataProcessor.js (twelve entries:
six hex codes, each listed twice). -/
def COLORS : List String :=
  ["#FF6384", "#36A2EB", "#FFCE56", "#4BC0C0", "#9966FF", "#FF9F40",
   "#FF6384", "#36A2EB", "#FFCE56", "#4BC0C0", "#9966FF", "#FF9F40"]

/-- JavaScript object-key coercion of a Category value to a string. Category
labels are free text typed by the user, so string categories are the exact
keys; the stringification of a numeric category is approximate. -/
def categoryKey : JsVal → String
  | .str s => s
  | .num q => toString q
  | .undef => "undefined"

/-- The natural number whose canonical decimal representation the string is
(`"0"`, or digits with no leading zero); `none` otherwise. -/
def canonicalNat (s : String) : Option ℕ :=
  match s.toList with
  | [] => none
  | ['0'] => some 0
  | c :: cs =>
      if (c :: cs).all Char.isDigit && c != '0' then some (natOfDigits (c :: cs))
      else none

/-- The string is an ECMAScript array-index property key: the canonical
decimal representation of an integer below 2^32 - 1. -/
def isArrayIndex (s : String) : Bool :=
  match canonicalNat s with
  | some n => decide (n < 4294967295)
  | none => false

/-- Ascending numeric order of array-index keys (the order in which JavaScript
enumerates them; only applied to keys that pass `isArrayIndex`). -/
def arrIdxLe (a b : String) : Bool :=
  decide ((canonicalNat a).getD 0 ≤ (canonicalNat b).getD 0)

/-- ECMAScript own-property enumeration order (`OrdinaryOwnPropertyKeys`), as
read by `Object.keys` and `Object.values`: array-index keys first in ascending
numeric order, then the remaining string keys in insertion order. -/
def propertyOrder (tot : List (String × Option ℚ)) : List (String × Option ℚ) :=
  stableSort (fun p q => arrIdxLe p.1 q.1) (tot.filter (fun p => isArrayIndex p.1))
    ++ tot.filter (fun p => !isArrayIndex p.1)

/-- The record passes the aggregation guard of `processData`
(`if (Category && Amount !== undefined)`). -/
def aggregates (t : Record) : Bool :=
  jsTruthy t.Category && decide (t.Amount ≠ JsVal.undef)

/-- Stored-total read in `totals[Category] || 0`: an absent entry, a stored
`NaN` and a stored `0` all read as `0`; any other stored number reads as
itself. -/
def jsOrZero : Option ℚ → ℚ
  | some q => q
  | none => 0

/-- New stored total `(totals[Category] || 0) + Math.abs(Amount)`: adding a
`NaN` magnitude poisons the entry to `NaN`. -/
def addAbs (old : Option ℚ) (a : Option ℚ) : Option ℚ :=
  match a with
  | none => none
  | some x => some (jsOrZero old + x)

/-- `Math.abs` after `ToNumber` (`none` = `NaN`). -/
def jsAbsNum : Option ℚ → Option ℚ
  | some q => some |q|
  | none => none

/-- One assignment `totals[k] = (totals[k] || 0) + a` on the insertion-ordered
key/value table: update the entry in place when the key exists, else append it.
String keys of a JavaScript object enumerate in insertion order. -/
def bumpTotal (k : String) (a : Option ℚ) : List (String × Option ℚ) → List (String × Option ℚ)
  | [] => [(k, addAbs none a)]
  | (k', v) :: t => if k' = k then (k', addAbs v a) :: t else (k', v) :: bumpTotal k a t

/-- One step of the `reduce` of `processData`: accumulate `Math.abs(Amount)`
into the totals entry of the record's category, skipping records whose
`Category` is falsy or whose `Amount` is `undefined`. -/
def aggStep (tot : List (String × Option ℚ)) (t : Record) : List (String × Option ℚ) :=
  if aggregates t then
    bumpTotal (categoryKey t.Category) (jsAbsNum (jsToNumber t.Amount)) tot
  else tot

/-- The `reduce` of `processData` (dataProcessor.js lines 77-83). -/
def categoryTotals (transactions : List Record) : List (String × Option ℚ) :=
  transactions.foldl aggStep []

/-- Sum of the stored totals, reading `NaN` entries as 0 (spec side; the
aggregation invariant shows no `NaN` entry arises from numeric amounts). -/
def valsSum (tot : List (String × Option ℚ)) : ℚ :=
  (tot.map (fun p => (p.2).getD 0)).sum

/-- Output of the Category Aggregator: three parallel sequences. -/
structure ChartData where
  labels : List String
  data : List (Option ℚ)
  colors : List String
deriving DecidableEq, Repr

/-- `processData` from PieChart/dataProcessor.js (lines 70-94): empty input
yields three empty sequences; otherwise `Object.keys` and `Object.values` read
the totals table in property-enumeration order (array-index-like category keys
first in ascending numeric order, the rest in insertion order), and each label
position gets `COLORS[index % COLORS.length]`. -/
def processData (transactions : List Record) : ChartData :=
  if transactions.length = 0 then ⟨[], [], []⟩
  else
    let tot := propertyOrder (categoryTotals transactions)
    let labels := tot.map Prod.fst
    ⟨labels, tot.map Prod.snd,
     (List.range labels.length).map (fun i => COLORS[i % COLORS.length]!)⟩

/-- Records that pass the aggregation guard, in store order (spec side). -/
def qualifying (transactions : List Record) : List Record :=
  transactions.filter aggregates

/-- Category keys of the qualifying records, in store order (spec side). -/
def qualifyingKeys (transactions : List Record) : List String :=
  (qualifying transactions).map (fun t => categoryKey t.Category)

/-- First-seen deduplication of a list of labels (spec side):
each label kept at the position of its first occurrence. -/
def firstSeen (l : List String) : List String :=
  l.foldl (fun acc x => if x ∈ acc then acc else acc ++ [x]) []

/-- JavaScript property-enumeration order on a label list (spec side):
array-index-like labels first in ascending numeric order, then the remaining
labels in their given order. -/
def jsEnumOrder (labels : List String) : List String :=
  stableSort arrIdxLe (labels.filter isArrayIndex)
    ++ labels.filter (fun s => !isArrayIndex s)

/-- Sortable columns of the table (the three clickable headers). -/
inductive Column where
  | date | amount | category
deriving DecidableEq, Repr

/-- Sort direction. -/
inductive Direction where
  | asc | desc
deriving DecidableEq, Repr

/-- Field value of the given column. -/
def colVal (c : Column) (t : Record) : JsVal :=
  match c with
  | .date => t.Date
  | .amount => t.Amount
  | .category => t.Category

/-- The comparator passed to `Array.prototype.sort` in `handleSort`
(FinTrackTable.js lines 130-134): `-1`/`1` by `<` on the column values,
swapped for descending, `0` otherwise. -/
def jsComparator (key : Column) (dir : Direction) (a b : Record) : ℤ :=
  if jsLt (colVal key a) (colVal key b) then (if dir = .asc then -1 else 1)
  else if jsLt (colVal key b) (colVal key a) then (if dir = .asc then 1 else -1)
  else 0

/-- `sortedData` in `handleSort`: the full store sorted by the comparator. -/
def sortedData (key : Column) (dir : Direction) (data : List Record) : List Record :=
  stableSort (fun a b => decide (jsComparator key dir a b ≤ 0)) data

/-- Sort state of the table: `{ key: null, direction: 'asc' }` initially. -/
structure SortConfig where
  key : Option Column
  direction : Direction
deriving DecidableEq, Repr

/-- `handleSort` from FinTrackTable.js (lines 122-137): compute the new
direction (descending only when the same column was already sorted ascending),
store the new sort config, and replace the full store with the sorted list. -/
def handleSort (cfg : SortConfig) (key : Column) (data : List Record) :
    SortConfig × List Record :=
  let dir : Direction :=
    if cfg.key = some key ∧ cfg.direction = .asc then .desc else .asc
  (⟨some key, dir⟩, sortedData key dir data)

/-- JavaScript `Array.prototype.filter` whose callback also receives the
element index, counting from `i0`. -/
def filterWithIndexFrom {α : Type} (p : α → ℕ → Bool) (i0 : ℕ) : List α → List α
  | [] => []
  | a :: t =>
      if p a i0 then a :: filterWithIndexFrom p (i0 + 1) t
      else filterWithIndexFrom p (i0 + 1) t

/-- `prevData.filter((_, i) => i !== index)` from `handleDeleteTransaction`. -/
def removeByIndex (data : List Record) (index : ℕ) : List Record :=
  filterWithIndexFrom (fun _ i => decide (i ≠ index)) 0 data

/-- `handleDeleteTransaction` from FinTrackTable.js (lines 239-251), as a
function of the backend call outcome: the record at the given store index is
removed locally only when the DELETE call returns status 200; on any error or
non-200 status the list is left untouched. -/
def handleDeleteTransaction (data : List Record) (index : ℕ)
    (resp : Except String ℕ) : List Record :=
  match resp with
  | .ok status => if status = 200 then removeByIndex data index else data
  | .error _ => data

/-- Visible result of a fetch handler: the new table data plus the diagnostic
log lines and the user-visible alert dialogs it produced. -/
structure UiResult where
  tableData : List Record
  logs : List String
  alerts : List String
deriving DecidableEq, Repr

/-- `fetchData` in App.js (the load of the Transaction Store on mount): on
status 200 the whole list is replaced by the response; an error is caught and
logged with `console.error` only — no alert is shown and the list keeps its
previous value. -/
def fetchDataApp (prev : List Record) (resp : Except String (ℕ × List Record)) : UiResult :=
  match resp with
  | .ok (status, d) => ⟨if status = 200 then d else prev, [], []⟩
  | .error e => ⟨prev, ["Error fetching data: " ++ e], []⟩

/-- `fetchData` in FinTrackTable.js (lines 52-62, also run on the table's mount
and by `resetFilters`): identical to the App-level load except that the catch
block additionally shows a user-visible `alert` dialog. -/
def fetchDataTable (prev : List Record) (resp : Except String (ℕ × List Record)) : UiResult :=
  match resp with
  | .ok (status, d) => ⟨if status = 200 then d else prev, [], []⟩
  | .error e =>
      ⟨prev, ["Error fetching data: " ++ e], ["Failed to fetch data. Please try again."]⟩

/-- A JavaScript number including its special values, for the gauge arithmetic
(`spent / limit` can be `Infinity` or `NaN` when the limit is 0). -/
inductive JsNum where
  | fin (q : ℚ)
  | posInf
  | negInf
  | nan
deriving DecidableEq, Repr

/-- JavaScript division of two finite numbers. -/
def jsDivNum (a b : ℚ) : JsNum :=
  if b = 0 then (if a = 0 then .nan else if 0 < a then .posInf else .negInf)
  else .fin (a / b)

/-- Multiplication by the positive constant 100. -/
def jsMul100 : JsNum → JsNum
  | .fin q => .fin (q * 100)
  | x => x

/-- `Math.min(x, c)` for a finite `c` (`NaN` wins, `Infinity` loses). -/
def jsMinC (x : JsNum) (c : ℚ) : JsNum :=
  match x with
  | .fin q => .fin (min q c)
  | .posInf => .fin c
  | .negInf => .negInf
  | .nan => .nan

/-- `x >= c` for a finite `c` (`NaN` compares false). -/
def jsGeC (x : JsNum) (c : ℚ) : Bool :=
  match x with
  | .fin q => decide (c ≤ q)
  | .posInf => true
  | _ => false

/-- `parseFloat(transaction.Amount)` in the gauge (`parseFloat` stringifies a
numeric argument and reparses it, which is the identity on numbers). -/
def parseFloatVal : JsVal → Option ℚ
  | .num q => some q
  | .str s => jsParseFloat s
  | .undef => none

/-- `parseFloat(transaction.Amount) < 0` (false for `NaN`). -/
def isNegTx (t : Record) : Bool :=
  match parseFloatVal t.Amount with
  | some q => decide (q < 0)
  | none => false

/-- `totalSpent` in SpendingLimit.js (lines 16-18): filter the negative-amount
records, then reduce summing `Math.abs(parseFloat(Amount))`. Inside the filter
the parse is known to succeed, so the `getD 0` default is never read. -/
def totalSpent (txs : List Record) : ℚ :=
  (txs.filter isNegTx).foldl (fun s t => s + |(parseFloatVal t.Amount).getD 0|) 0

/-- `percentage = Math.min((spent / limit) * 100, 100)` (SpendingLimit.js line 41). -/
def percentageOf (spent limit : ℚ) : JsNum :=
  jsMinC (jsMul100 (jsDivNum spent limit)) 100

/-- `getColor` in SpendingLimit.js (lines 44-48): red at 90 percent and above,
orange at 75, green otherwise. -/
def getColor (p : JsNum) : String :=
  if jsGeC p 90 then "#ef4444"
  else if jsGeC p 75 then "#f97316"
  else "#22c55e"

/-- Successful payload of the chat relay call (`response.data.response`). -/
structure ChatSuccess where
  response : String
deriving DecidableEq, Repr

/-- Failed chat relay call: the optional backend error field
(`error.response?.data?.error`, absent on pure transport errors) and the
error's own message. -/
structure ChatFailure where
  errField : Option String
  message : String
deriving DecidableEq, Repr

/-- `generateResponse` from chatbotUtils.js (lines 127-141): on success return
the response text; on any error return a string prefixed with `Error: `
followed by the backend error field when present and non-empty (JavaScript
`||`), else the error message. The catch makes the function total — no
exception reaches the caller. -/
def generateResponse (outcome : Except ChatFailure ChatSuccess) : String :=
  match outcome with
  | .ok r => r.response
  | .error e =>
      "Error: " ++
        (match e.errField with
         | some s => if s = "" then e.message else s
         | none => e.message)

/-- Message classification in `handleSubmit` (ChatBot.js lines 165-175): a
reply is rendered in the error style exactly when it starts with `Error:`,
else as a normal bot message. -/
def classifyResponse (resp : String) : String :=
  if jsStartsWith resp "Error:" then "error" else "bot"

/-- Example record: a January coffee purchase (spec section 8). -/
def rCoffeeJan : Record :=
  ⟨.str "2024-01-01", "Coffee Shop", .num (-5), .num 100, .str "Food"⟩

/-- Example record: a February coffee purchase (spec section 8). -/
def rCoffeeFeb : Record :=
  ⟨.str "2024-02-01", "Coffee Shop", .num (-5), .num 95, .str "Food"⟩

/-- Example record: a January rent payment (spec section 8). -/
def rRent : Record :=
  ⟨.str "2024-01-15", "Rent", .num (-1000), .num (-900), .str "Housing"⟩

/-- Gauge example: transactions with negative amounts totalling 300. -/
def gaugeTx1 : List Record :=
  [⟨.str "2024-01-02", "Groceries", .num (-100), .num 0, .str "Food"⟩,
   ⟨.str "2024-01-03", "Utilities", .num (-200), .num 0, .str "Bills"⟩,
   ⟨.str "2024-01-04", "Paycheck", .num 500, .num 500, .str "Income"⟩]

/-- Gauge example: transactions with negative amounts totalling 1100. -/
def gaugeTx2 : List Record :=
  [⟨.str "2024-01-05", "Laptop", .num (-1100), .num 0, .str "Tech"⟩,
   ⟨.str "2024-01-04", "Paycheck", .num 500, .num 500, .str "Income"⟩]

/-- Aggregator example: the free-text category `"2"` is an array-index-like
object key and is entered after the ordinary category `"b"`. -/
def idxCatTx : List Record :=
  [⟨.str "2024-01-06", "Misc b", .num 1, .num 0, .str "b"⟩,
   ⟨.str "2024-01-07", "Misc two", .num 2, .num 0, .str "2"⟩]

/-- Folding additions of `f` over a list starting from `a` sums the images. -/
theorem foldl_add_eq_sum {α : Type} (f : α → ℚ) (l : List α) (a : ℚ) :
    l.foldl (fun s t => s + f t) a = a + (l.map f).sum := by
  induction l generalizing a with
  | nil => simp
  | cons x t ih => simp [List.foldl_cons, ih]; ring

/-- Membership in a stable insertion. -/
theorem mem_insertLe {α : Type} (le : α → α → Bool) (a x : α) :
    ∀ l : List α, x ∈ insertLe le a l ↔ x = a ∨ x ∈ l := by
  intro l
  induction l with
  | nil => simp [insertLe]
  | cons b t ih =>
    rw [insertLe]
    by_cases h : le a b = true
    · simp [h]
    · simp [h, ih]
      tauto

/-- Stable insertion permutes the cons. -/
theorem insertLe_perm {α : Type} (le : α → α → Bool) (a : α) :
    ∀ l : List α, (insertLe le a l).Perm (a :: l) := by
  intro l
  induction l with
  | nil => rw [insertLe]
  | cons b t ih =>
    rw [insertLe]
    by_cases h : le a b = true
    · rw [if_pos h]
    · rw [if_neg h]
      exact (ih.cons b).trans (List.Perm.swap a b t)

/-- Stable insertion sort permutes its input. -/
theorem stableSort_perm {α : Type} (le : α → α → Bool) :
    ∀ l : List α, (stableSort le l).Perm l := by
  intro l
  induction l with
  | nil => rw [stableSort]
  | cons a t ih => exact (insertLe_perm le a (stableSort le t)).trans (ih.cons a)

/-- Inserting into a sorted list keeps it sorted, provided the inserted element
compares both ways against the list members and chains through them. -/
theorem pairwise_insertLe {α : Type} {le : α → α → Bool} {a : α} :
    ∀ {l : List α},
      (∀ b ∈ l, le a b = true ∨ le b a = true) →
      (∀ b ∈ l, ∀ c ∈ l, le a b = true → le b c = true → le a c = true) →
      l.Pairwise (fun x y => le x y = true) →
      (insertLe le a l).Pairwise (fun x y => le x y = true) := by
  intro l
  induction l with
  | nil => intro _ _ _; simp [insertLe]
  | cons b t ih =>
    intro htot htr hs
    rw [insertLe]
    by_cases hab : le a b = true
    · rw [if_pos hab]
      refine List.pairwise_cons.mpr ⟨?_, hs⟩
      intro x hx
      rcases List.mem_cons.mp hx with rfl | hxt
      · exact hab
      · exact htr b (List.mem_cons_self b t) x (List.mem_cons_of_mem b hxt) hab
          ((List.pairwise_cons.mp hs).1 x hxt)
    · rw [if_neg hab]
      have hba : le b a = true := by
        rcases htot b (List.mem_cons_self b t) with h | h
        · exact absurd h hab
        · exact h
      refine List.pairwise_cons.mpr ⟨?_, ?_⟩
      · intro x hx
        rcases (mem_insertLe le a x t).mp hx with rfl | hxt
        · exact hba
        · exact (List.pairwise_cons.mp hs).1 x hxt
      · exact ih (fun c hc => htot c (List.mem_cons_of_mem b hc))
          (fun c hc d hd => htr c (List.mem_cons_of_mem b hc) d (List.mem_cons_of_mem b hd))
          (List.pairwise_cons.mp hs).2

/-- The insertion sort output is sorted, provided the comparison is total and
transitive on the members of the input. -/
theorem pairwise_stableSort {α : Type} {le : α → α → Bool} :
    ∀ {l : List α},
      (∀ a ∈ l, ∀ b ∈ l, le a b = true ∨ le b a = true) →
      (∀ a ∈ l, ∀ b ∈ l, ∀ c ∈ l, le a b = true → le b c = true → le a c = true) →
      (stableSort le l).Pairwise (fun x y => le x y = true) := by
  intro l
  induction l with
  | nil => intro _ _; simp [stableSort]
  | cons a t ih =>
    intro htot htr
    rw [stableSort]
    have hmem : ∀ x ∈ stableSort le t, x ∈ t := fun x hx =>
      (stableSort_perm le t).mem_iff.mp hx
    refine pairwise_insertLe ?_ ?_ ?_
    · intro b hb
      exact htot a (List.mem_cons_self a t) b (List.mem_cons_of_mem a (hmem b hb))
    · intro b hb c hc
      exact htr a (List.mem_cons_self a t) b (List.mem_cons_of_mem a (hmem b hb))
        c (List.mem_cons_of_mem a (hmem c hc))
    · exact ih (fun x hx y hy => htot x (List.mem_cons_of_mem a hx) y (List.mem_cons_of_mem a hy))
        (fun x hx y hy z hz => htr x (List.mem_cons_of_mem a hx) y (List.mem_cons_of_mem a hy)
          z (List.mem_cons_of_mem a hz))

/-- Sorting an already sorted list returns it unchanged. -/
theorem stableSort_of_pairwise {α : Type} {le : α → α → Bool} :
    ∀ {l : List α}, l.Pairwise (fun x y => le x y = true) → stableSort le l = l := by
  intro l
  induction l with
  | nil => intro _; rw [stableSort]
  | cons a t ih =>
    intro hs
    rw [stableSort, ih (List.pairwise_cons.mp hs).2]
    cases t with
    | nil => rw [insertLe]
    | cons b t' =>
      rw [insertLe, if_pos ((List.pairwise_cons.mp hs).1 b (List.mem_cons_self b t'))]

/-- Two sorted permutations of each other are equal, provided the comparison is
antisymmetric on the members. -/
theorem eq_of_perm_of_pairwise {α : Type} {le : α → α → Bool} :
    ∀ {l₁ l₂ : List α}, l₁.Perm l₂ →
      l₁.Pairwise (fun x y => le x y = true) →
      l₂.Pairwise (fun x y => le x y = true) →
      (∀ a ∈ l₁, ∀ b ∈ l₁, le a b = true → le b a = true → a = b) →
      l₁ = l₂ := by
  intro l₁
  induction l₁ with
  | nil =>
    intro l₂ hp _ _ _
    rw [(hp.symm).eq_nil]
  | cons a t ih =>
    intro l₂ hp hs1 hs2 hanti
    cases l₂ with
    | nil => exact absurd hp.eq_nil (by simp)
    | cons b t₂ =>
      have hab : a = b := by
        have hbmem : b ∈ a :: t := hp.mem_iff.mpr (List.mem_cons_self b t₂)
        have hamem : a ∈ b :: t₂ := hp.mem_iff.mp (List.mem_cons_self a t)
        rcases List.mem_cons.mp hbmem with h | hbt
        · exact h.symm
        rcases List.mem_cons.mp hamem with h | hat
        · exact h
        exact hanti a (List.mem_cons_self a t) b (List.mem_cons_of_mem a hbt)
          ((List.pairwise_cons.mp hs1).1 b hbt) ((List.pairwise_cons.mp hs2).1 a hat)
      subst hab
      rw [ih hp.cons_inv (List.pairwise_cons.mp hs1).2 (List.pairwise_cons.mp hs2).2
        (fun x hx y hy => hanti x (List.mem_cons_of_mem a hx) y (List.mem_cons_of_mem a hy))]

/-- Numeric branch of `jsLt` is asymmetric. -/
theorem numLtB_asymm (o1 o2 : Option ℚ) : numLtB o1 o2 = true → numLtB o2 o1 = false := by
  rcases o1 with _ | x <;> rcases o2 with _ | y <;> simp [numLtB]
  intro h
  exact le_of_lt h

/-- Numeric branch of `jsLt` is irreflexive. -/
theorem numLtB_irrefl (o : Option ℚ) : numLtB o o = false := by
  rcases o with _ | x <;> simp [numLtB]

/-- The JavaScript `<` on field values is asymmetric. -/
theorem jsLt_asymm (v w : JsVal) : jsLt v w = true → jsLt w v = false := by
  cases v with
  | str a =>
    cases w with
    | str b =>
      simp only [jsLt, decide_eq_true_eq, decide_eq_false_iff_not, not_lt]
      intro h
      exact le_of_lt h
    | num y => simp only [jsLt]; exact numLtB_asymm _ _
    | undef => simp only [jsLt]; exact numLtB_asymm _ _
  | num x =>
    cases w with
    | str b => simp only [jsLt]; exact numLtB_asymm _ _
    | num y => simp only [jsLt]; exact numLtB_asymm _ _
    | undef => simp only [jsLt]; exact numLtB_asymm _ _
  | undef =>
    cases w with
    | str b => simp only [jsLt]; exact numLtB_asymm _ _
    | num y => simp only [jsLt]; exact numLtB_asymm _ _
    | undef => simp only [jsLt]; exact numLtB_asymm _ _

/-- The JavaScript `<` on field values is irreflexive. -/
theorem jsLt_irrefl (v : JsVal) : jsLt v v = false := by
  cases v with
  | str a => simp [jsLt]
  | num x => simp only [jsLt]; exact numLtB_irrefl _
  | undef => simp only [jsLt]; exact numLtB_irrefl _

/-- `jsLt` on two numbers is the numeric comparison. -/
theorem jsLt_num_num (x y : ℚ) : jsLt (.num x) (.num y) = decide (x < y) := by
  simp only [jsLt, jsToNumber, numLtB]

/-- `jsLt` on two strings is the lexicographic comparison. -/
theorem jsLt_str_str (a b : String) : jsLt (.str a) (.str b) = decide (a < b) := rfl

/-- An ascending comparison is non-positive exactly when the second column
value is not below the first. -/
theorem jsComparator_asc_le_zero (key : Column) (a b : Record) :
    jsComparator key .asc a b ≤ 0 ↔ jsLt (colVal key b) (colVal key a) = false := by
  rw [jsComparator]
  by_cases h1 : jsLt (colVal key a) (colVal key b) = true
  · rw [if_pos h1]
    simp [jsLt_asymm _ _ h1]
  · rw [if_neg h1]
    by_cases h2 : jsLt (colVal key b) (colVal key a) = true
    · rw [if_pos h2]
      simp [h2]
    · rw [if_neg h2]
      simp [Bool.eq_false_iff.mpr h2]

/-- A descending comparison is non-positive exactly when the first column
value is not below the second. -/
theorem jsComparator_desc_le_zero (key : Column) (a b : Record) :
    jsComparator key .desc a b ≤ 0 ↔ jsLt (colVal key a) (colVal key b) = false := by
  rw [jsComparator]
  by_cases h1 : jsLt (colVal key a) (colVal key b) = true
  · rw [if_pos h1]
    simp [h1]
  · rw [if_neg h1]
    by_cases h2 : jsLt (colVal key b) (colVal key a) = true
    · rw [if_pos h2]
      simp [Bool.eq_false_iff.mpr h1]
    · rw [if_neg h2]
      simp [Bool.eq_false_iff.mpr h1]

/-- The comparator returns zero exactly when neither column value is below the
other (equal or incomparable values). -/
theorem jsComparator_eq_zero_iff (key : Column) (dir : Direction) (a b : Record) :
    jsComparator key dir a b = 0 ↔
      jsLt (colVal key a) (colVal key b) = false ∧
      jsLt (colVal key b) (colVal key a) = false := by
  rw [jsComparator]
  by_cases h1 : jsLt (colVal key a) (colVal key b) = true
  · rw [if_pos h1]
    cases dir <;> simp [h1]
  · rw [if_neg h1]
    by_cases h2 : jsLt (colVal key b) (colVal key a) = true
    · rw [if_pos h2]
      cases dir <;> simp [h2]
    · rw [if_neg h2]
      simp [Bool.eq_false_iff.mpr h1, Bool.eq_false_iff.mpr h2]

/-- The comparator only ever returns -1, 0 or 1. -/
theorem jsComparator_mem_range (key : Column) (dir : Direction) (a b : Record) :
    jsComparator key dir a b = -1 ∨ jsComparator key dir a b = 0 ∨
      jsComparator key dir a b = 1 := by
  rw [jsComparator]
  by_cases h1 : jsLt (colVal key a) (colVal key b) = true
  · rw [if_pos h1]
    cases dir <;> simp
  · rw [if_neg h1]
    by_cases h2 : jsLt (colVal key b) (colVal key a) = true
    · rw [if_pos h2]
      cases dir <;> simp
    · rw [if_neg h2]
      simp

/-- For any two records one of the two comparison orders is non-positive
(the comparator-induced preorder is total). -/
theorem jsComparator_total (key : Column) (dir : Direction) (a b : Record) :
    jsComparator key dir a b ≤ 0 ∨ jsComparator key dir b a ≤ 0 := by
  cases dir
  · rw [jsComparator_asc_le_zero, jsComparator_asc_le_zero]
    by_cases h : jsLt (colVal key b) (colVal key a) = true
    · exact Or.inr (jsLt_asymm _ _ h)
    · exact Or.inl (Bool.eq_false_iff.mpr h)
  · rw [jsComparator_desc_le_zero, jsComparator_desc_le_zero]
    by_cases h : jsLt (colVal key a) (colVal key b) = true
    · exact Or.inr (jsLt_asymm _ _ h)
    · exact Or.inl (Bool.eq_false_iff.mpr h)

/-- The descending order relation is the swapped ascending one. -/
theorem jsComparator_desc_swap (key : Column) (a b : Record) :
    decide (jsComparator key .desc a b ≤ 0) = decide (jsComparator key .asc b a ≤ 0) := by
  rw [decide_eq_decide, jsComparator_desc_le_zero, jsComparator_asc_le_zero]

/-- A value satisfying `isNum` is a number. -/
theorem isNum_exists {v : JsVal} (h : v.isNum = true) : ∃ q, v = .num q := by
  cases v with
  | num q => exact ⟨q, rfl⟩
  | str s => simp [JsVal.isNum] at h
  | undef => simp [JsVal.isNum] at h

/-- A value satisfying `isStr` is a string. -/
theorem isStr_exists {v : JsVal} (h : v.isStr = true) : ∃ s, v = .str s := by
  cases v with
  | num q => simp [JsVal.isStr] at h
  | str s => exact ⟨s, rfl⟩
  | undef => simp [JsVal.isStr] at h

/-- On a list whose column values are homogeneous (all numbers or all strings),
the ascending comparator order is transitive. -/
theorem asc_trans_of_homog (key : Column) {l : List Record}
    (homog : (∀ t ∈ l, (colVal key t).isNum = true) ∨
      (∀ t ∈ l, (colVal key t).isStr = true)) :
    ∀ a ∈ l, ∀ b ∈ l, ∀ c ∈ l,
      jsComparator key .asc a b ≤ 0 → jsComparator key .asc b c ≤ 0 →
      jsComparator key .asc a c ≤ 0 := by
  intro a ha b hb c hc hab hbc
  rw [jsComparator_asc_le_zero] at hab hbc ⊢
  rcases homog with hnum | hstr
  · obtain ⟨qa, hqa⟩ := isNum_exists (hnum a ha)
    obtain ⟨qb, hqb⟩ := isNum_exists (hnum b hb)
    obtain ⟨qc, hqc⟩ := isNum_exists (hnum c hc)
    rw [hqb, hqa, jsLt_num_num] at hab
    rw [hqc, hqb, jsLt_num_num] at hbc
    rw [hqc, hqa, jsLt_num_num]
    simp only [decide_eq_false_iff_not, not_lt] at hab hbc ⊢
    exact hab.trans hbc
  · obtain ⟨sa, hsa⟩ := isStr_exists (hstr a ha)
    obtain ⟨sb, hsb⟩ := isStr_exists (hstr b hb)
    obtain ⟨sc, hsc⟩ := isStr_exists (hstr c hc)
    rw [hsb, hsa, jsLt_str_str] at hab
    rw [hsc, hsb, jsLt_str_str] at hbc
    rw [hsc, hsa, jsLt_str_str]
    simp only [decide_eq_false_iff_not, not_lt] at hab hbc ⊢
    exact hab.trans hbc

/-- Having a tie is a symmetric relation between records. -/
theorem jsComparator_ne_zero_symm (key : Column) :
    Symmetric (fun a b : Record => jsComparator key .asc a b ≠ 0) := by
  intro a b h h0
  apply h
  rw [jsComparator_eq_zero_iff] at h0 ⊢
  exact ⟨h0.2, h0.1⟩

/-- C4: for every record list and sortable column whose values are homogeneous
(all numbers or all strings, as each column holds in the data model) and carry
no ties, sorting ascending and then descending yields the reverse of the
ascending order, and the ascending sort is idempotent. -/
theorem C4_sort_reverse_and_idempotent (key : Column) (l : List Record)
    (homog : (∀ t ∈ l, (colVal key t).isNum = true) ∨
      (∀ t ∈ l, (colVal key t).isStr = true))
    (noTies : l.Pairwise (fun a b => jsComparator key .asc a b ≠ 0)) :
    sortedData key .desc (sortedData key .asc l) = (sortedData key .asc l).reverse
    ∧ sortedData key .asc (sortedData key .asc l) = sortedData key .asc l := by
  have htotA : ∀ a ∈ l, ∀ b ∈ l,
      (decide (jsComparator key .asc a b ≤ 0)) = true ∨
      (decide (jsComparator key .asc b a ≤ 0)) = true := by
    intro a _ b _
    simpa using jsComparator_total key .asc a b
  have htrA : ∀ a ∈ l, ∀ b ∈ l, ∀ c ∈ l,
      (decide (jsComparator key .asc a b ≤ 0)) = true →
      (decide (jsComparator key .asc b c ≤ 0)) = true →
      (decide (jsComparator key .asc a c ≤ 0)) = true := by
    intro a ha b hb c hc hab hbc
    simp only [decide_eq_true_eq] at hab hbc ⊢
    exact asc_trans_of_homog key homog a ha b hb c hc hab hbc
  have hPA : (sortedData key .asc l).Pairwise
      (fun x y => (decide (jsComparator key .asc x y ≤ 0)) = true) :=
    pairwise_stableSort htotA htrA
  have hidem : sortedData key .asc (sortedData key .asc l) = sortedData key .asc l :=
    stableSort_of_pairwise hPA
  have hmemL : ∀ x ∈ sortedData key .asc l, x ∈ l := fun x hx =>
    (stableSort_perm _ l).mem_iff.mp hx
  have htotD : ∀ a ∈ sortedData key .asc l, ∀ b ∈ sortedData key .asc l,
      (decide (jsComparator key .desc a b ≤ 0)) = true ∨
      (decide (jsComparator key .desc b a ≤ 0)) = true := by
    intro a _ b _
    simpa using jsComparator_total key .desc a b
  have htrD : ∀ a ∈ sortedData key .asc l, ∀ b ∈ sortedData key .asc l,
      ∀ c ∈ sortedData key .asc l,
      (decide (jsComparator key .desc a b ≤ 0)) = true →
      (decide (jsComparator key .desc b c ≤ 0)) = true →
      (decide (jsComparator key .desc a c ≤ 0)) = true := by
    intro a ha b hb c hc hab hbc
    rw [jsComparator_desc_swap] at hab hbc ⊢
    simp only [decide_eq_true_eq] at hab hbc ⊢
    exact asc_trans_of_homog key homog c (hmemL c hc) b (hmemL b hb) a (hmemL a ha) hbc hab
  have hPD1 : (sortedData key .desc (sortedData key .asc l)).Pairwise
      (fun x y => (decide (jsComparator key .desc x y ≤ 0)) = true) :=
    pairwise_stableSort htotD htrD
  have hPD2 : ((sortedData key .asc l).reverse).Pairwise
      (fun x y => (decide (jsComparator key .desc x y ≤ 0)) = true) := by
    rw [List.pairwise_reverse]
    exact hPA.imp (fun {a b} h => by rw [jsComparator_desc_swap]; exact h)
  have hperm : (sortedData key .desc (sortedData key .asc l)).Perm
      ((sortedData key .asc l).reverse) :=
    (stableSort_perm _ _).trans (List.reverse_perm (sortedData key .asc l)).symm
  have hanti : ∀ a ∈ sortedData key .desc (sortedData key .asc l),
      ∀ b ∈ sortedData key .desc (sortedData key .asc l),
      (decide (jsComparator key .desc a b ≤ 0)) = true →
      (decide (jsComparator key .desc b a ≤ 0)) = true → a = b := by
    intro a ha b hb h1 h2
    by_cases hab : a = b
    · exact hab
    · exfalso
      have ha' : a ∈ l := hmemL a ((stableSort_perm _ _).mem_iff.mp ha)
      have hb' : b ∈ l := hmemL b ((stableSort_perm _ _).mem_iff.mp hb)
      have h0 : jsComparator key .asc a b = 0 := by
        rw [jsComparator_eq_zero_iff]
        exact ⟨(jsComparator_desc_le_zero key a b).mp (of_decide_eq_true h1),
          (jsComparator_desc_le_zero key b a).mp (of_decide_eq_true h2)⟩
      exact (noTies.forall (jsComparator_ne_zero_symm key) ha' hb' hab) h0
  exact ⟨eq_of_perm_of_pairwise hperm hPD1 hPD2 hanti, hidem⟩

/-- The sorted list is a permutation of the input. -/
theorem sortedData_perm (key : Column) (dir : Direction) (data : List Record) :
    (sortedData key dir data).Perm data :=
  stableSort_perm _ data

/-- Witness for C4 at a concrete list with distinct numeric amounts. -/
theorem C4_witness :
    sortedData .amount .desc (sortedData .amount .asc gaugeTx1)
      = (sortedData .amount .asc gaugeTx1).reverse
    ∧ sortedData .amount .asc (sortedData .amount .asc gaugeTx1)
      = sortedData .amount .asc gaugeTx1 :=
  C4_sort_reverse_and_idempotent .amount gaugeTx1 (Or.inl (by decide)) (by decide)

/-- C3: `handleSort` stores the clicked column as the single sorted column,
toggles ascending to descending only when the same column was already sorted
ascending (and back to ascending from descending), resets to ascending on a
different column, and replaces the full store with the sorted permutation. -/
theorem C3_handle_sort (cfg : SortConfig) (key : Column) (data : List Record) :
    (handleSort cfg key data).1.key = some key
    ∧ (cfg.key = some key → cfg.direction = .asc →
        (handleSort cfg key data).1.direction = .desc)
    ∧ (cfg.key = some key → cfg.direction = .desc →
        (handleSort cfg key data).1.direction = .asc)
    ∧ (cfg.key ≠ some key → (handleSort cfg key data).1.direction = .asc)
    ∧ (handleSort cfg key data).2
        = sortedData key (handleSort cfg key data).1.direction data
    ∧ ((handleSort cfg key data).2).Perm data := by
  by_cases h : cfg.key = some key ∧ cfg.direction = Direction.asc
  · have hres : handleSort cfg key data
        = (⟨some key, Direction.desc⟩, sortedData key Direction.desc data) := by
      simp [handleSort, h]
    rw [hres]
    exact ⟨rfl, fun _ _ => rfl, fun _ hd => absurd (h.2.symm.trans hd) (by decide),
      fun hne => absurd h.1 hne, rfl, sortedData_perm _ _ _⟩
  · have hres : handleSort cfg key data
        = (⟨some key, Direction.asc⟩, sortedData key Direction.asc data) := by
      simp [handleSort, h]
    rw [hres]
    exact ⟨rfl, fun hk hd => absurd ⟨hk, hd⟩ h, fun _ _ => rfl, fun _ => rfl,
      rfl, sortedData_perm _ _ _⟩

/-- Witness for C3: toggling at concrete sort configs and a concrete store. -/
theorem C3_witness :
    (handleSort ⟨some .date, .asc⟩ .date [rRent]).1.direction = .desc
    ∧ (handleSort ⟨some .date, .desc⟩ .date [rRent]).1.direction = .asc
    ∧ (handleSort ⟨some .amount, .desc⟩ .date [rRent]).1.direction = .asc
    ∧ ((handleSort ⟨some .date, .asc⟩ .date [rRent]).2).Perm [rRent] :=
  ⟨(C3_handle_sort _ _ _).2.1 rfl rfl,
   (C3_handle_sort _ _ _).2.2.1 rfl rfl,
   (C3_handle_sort _ _ _).2.2.2.1 (by decide),
   (C3_handle_sort _ _ _).2.2.2.2.2⟩

/-- C5: the comparator is a total function into {-1, 0, 1}, ties any pair of
equal or incomparable column values (missing or malformed fields included),
and the sort always returns a permutation of its input — no exception can
escape, every case of the comparator being defined. -/
theorem C5_comparator_safety :
    (∀ (key : Column) (dir : Direction) (a b : Record),
        jsComparator key dir a b = -1 ∨ jsComparator key dir a b = 0 ∨
          jsComparator key dir a b = 1)
    ∧ (∀ (key : Column) (dir : Direction) (a b : Record),
        jsLt (colVal key a) (colVal key b) = false →
        jsLt (colVal key b) (colVal key a) = false →
        jsComparator key dir a b = 0)
    ∧ (∀ (key : Column) (dir : Direction) (a b : Record),
        colVal key a = colVal key b → jsComparator key dir a b = 0)
    ∧ (∀ (key : Column) (dir : Direction) (data : List Record),
        (sortedData key dir data).Perm data) := by
  refine ⟨jsComparator_mem_range, ?_, ?_, fun key dir data => sortedData_perm key dir data⟩
  · intro key dir a b h1 h2
    exact (jsComparator_eq_zero_iff key dir a b).mpr ⟨h1, h2⟩
  · intro key dir a b h
    refine (jsComparator_eq_zero_iff key dir a b).mpr ⟨?_, ?_⟩ <;> rw [h] <;>
      exact jsLt_irrefl _

/-- Witness for C5: a record with a missing amount ties against a numeric one
and sorting their list returns a permutation. -/
theorem C5_witness :
    jsComparator .amount .asc ⟨.undef, "a", .undef, .undef, .undef⟩ rRent = 0
    ∧ (sortedData .amount .asc [⟨.undef, "a", .undef, .undef, .undef⟩, rRent]).Perm
        [⟨.undef, "a", .undef, .undef, .undef⟩, rRent] :=
  ⟨C5_comparator_safety.2.1 .amount .asc _ _ (by decide) (by decide),
   C5_comparator_safety.2.2.2 .amount .asc _⟩

/-- C2: the filtered view is exactly the store filtered by the conjunction of
the case-insensitive description match and the inclusive date range (empty term
and partial range imposing no filter), it preserves store order, and it returns
exactly the January coffee record on the spec's example. -/
theorem C2_visible_rows (data : List Record) (term : String) (rs re : Option ℤ) :
    filterData data term rs re
      = data.filter (fun t => matchesSearch term t && matchesDateRange rs re t)
    ∧ (filterData data term rs re).Sublist data
    ∧ filterData [rCoffeeJan, rCoffeeFeb, rRent] "coffee"
        (some 20240101) (some 20240131) = [rCoffeeJan] := by
  have heq : filterData data term rs re
      = data.filter (fun t => matchesSearch term t && matchesDateRange rs re t) := by
    by_cases hterm : term = ""
    · subst hterm
      rcases rs with _ | s <;> rcases re with _ | e <;>
        simp [filterData, matchesSearch, matchesDateRange]
    · have hbeq : (term == "") = false := beq_eq_false_iff_ne.mpr hterm
      rcases rs with _ | s <;> rcases re with _ | e
      · simp [filterData, matchesSearch, matchesDateRange, hterm, hbeq]
      · simp [filterData, matchesSearch, matchesDateRange, hterm, hbeq]
      · simp [filterData, matchesSearch, matchesDateRange, hterm, hbeq]
      · simp [filterData, matchesSearch, matchesDateRange, hterm, hbeq,
          List.filter_filter]
        exact List.filter_congr (fun t _ => Bool.and_comm _ _)
  refine ⟨heq, ?_, ?_⟩
  · rw [heq]
    exact List.filter_sublist data
  · decide

/-- An index-inequality filter starting above the index keeps every element. -/
theorem filterFrom_gt {α : Type} (k : ℕ) :
    ∀ (t : List α) (s : ℕ), k < s →
      filterWithIndexFrom (fun _ i => decide (i ≠ k)) s t = t := by
  intro t
  induction t with
  | nil => intro s _; rfl
  | cons a t' ih =>
    intro s hk
    rw [filterWithIndexFrom]
    rw [if_pos (by simpa using Nat.ne_of_gt hk)]
    rw [ih (s + 1) (Nat.lt_succ_of_lt hk)]

/-- Shifting both the target index and the start index leaves the
index-inequality filter unchanged. -/
theorem filterFrom_shift {α : Type} (k : ℕ) :
    ∀ (t : List α) (s : ℕ),
      filterWithIndexFrom (fun _ i => decide (i ≠ k + 1)) (s + 1) t
        = filterWithIndexFrom (fun _ i => decide (i ≠ k)) s t := by
  intro t
  induction t with
  | nil => intro s; rfl
  | cons a t' ih =>
    intro s
    rw [filterWithIndexFrom, filterWithIndexFrom]
    have hcond : (decide (s + 1 ≠ k + 1)) = (decide (s ≠ k)) := by
      simp
    rw [hcond, ih (s + 1)]

/-- The delete filter removes exactly the element at the index. -/
theorem removeByIndex_eq (data : List Record) (k : ℕ) :
    removeByIndex data k = data.take k ++ data.drop (k + 1) := by
  rw [removeByIndex]
  induction data generalizing k with
  | nil => simp [filterWithIndexFrom]
  | cons a t ih =>
    cases k with
    | zero =>
      rw [filterWithIndexFrom]
      rw [if_neg (by simp)]
      rw [filterFrom_gt 0 t 1 Nat.zero_lt_one]
      rfl
    | succ k' =>
      rw [filterWithIndexFrom]
      rw [if_pos (by simp)]
      rw [filterFrom_shift k' t 0, ih k']
      rfl

/-- C6: delete addresses the record by its position in the store's ordered
list — on a confirmed 200 response exactly the record at the given index is
removed, every other record staying in place and in order; on a non-200 status
or a failed call the store is unchanged. -/
theorem C6_delete_at_index (data : List Record) (index : ℕ) (resp : Except String ℕ) :
    (resp = .ok 200 →
      handleDeleteTransaction data index resp
        = data.take index ++ data.drop (index + 1))
    ∧ (∀ s, resp = .ok s → s ≠ 200 → handleDeleteTransaction data index resp = data)
    ∧ (∀ e, resp = .error e → handleDeleteTransaction data index resp = data) := by
  refine ⟨?_, ?_, ?_⟩
  · rintro rfl
    simp [handleDeleteTransaction, removeByIndex_eq]
  · rintro s rfl hs
    simp [handleDeleteTransaction, hs]
  · rintro e rfl
    rfl

/-- Witness for C6: deleting index 1 of a three-record store on a confirmed
response removes exactly the middle record; a failed call changes nothing. -/
theorem C6_witness :
    handleDeleteTransaction [rCoffeeJan, rCoffeeFeb, rRent] 1 (.ok 200)
      = [rCoffeeJan, rRent]
    ∧ handleDeleteTransaction [rCoffeeJan, rCoffeeFeb, rRent] 1 (.error "netdown")
      = [rCoffeeJan, rCoffeeFeb, rRent] := by
  constructor
  · rw [(C6_delete_at_index [rCoffeeJan, rCoffeeFeb, rRent] 1 (.ok 200)).1 rfl]
    rfl
  · exact (C6_delete_at_index [rCoffeeJan, rCoffeeFeb, rRent] 1
      (.error "netdown")).2.2 "netdown" rfl

/-- Counterexample for C7 as stated: the transaction table's fetch handler is
not silent on failure — its catch block raises a user-visible alert dialog. -/
theorem C7_counterexample :
    (fetchDataTable [] (.error "Network Error")).alerts ≠ [] := by
  simp [fetchDataTable]

/-- C7 (amended): on a failed fetch-all call the record list keeps its previous
value in both load paths, the App-level load stays silent to the user (log
only), while the table component's fetch handler additionally shows an alert;
on a 200 response both replace the entire list with the payload. -/
theorem C7_amended_load (prev : List Record) (resp : Except String (ℕ × List Record)) :
    (∀ e, resp = .error e →
      (fetchDataApp prev resp).tableData = prev
      ∧ (fetchDataApp prev resp).alerts = []
      ∧ (fetchDataApp prev resp).logs ≠ []
      ∧ (fetchDataTable prev resp).tableData = prev
      ∧ (fetchDataTable prev resp).alerts ≠ [])
    ∧ (∀ d, resp = .ok (200, d) →
      (fetchDataApp prev resp).tableData = d
      ∧ (fetchDataTable prev resp).tableData = d)
    ∧ (∀ s d, resp = .ok (s, d) → s ≠ 200 →
      (fetchDataApp prev resp).tableData = prev
      ∧ (fetchDataTable prev resp).tableData = prev) := by
  refine ⟨?_, ?_, ?_⟩
  · rintro e rfl
    exact ⟨rfl, rfl, by simp [fetchDataApp], rfl, by simp [fetchDataTable]⟩
  · rintro d rfl
    exact ⟨by simp [fetchDataApp], by simp [fetchDataTable]⟩
  · rintro s d rfl hs
    exact ⟨by simp [fetchDataApp, hs], by simp [fetchDataTable, hs]⟩

/-- Witness for C7 (amended) at a concrete failure and a concrete success. -/
theorem C7_witness :
    (fetchDataApp [] (.error "down")).tableData = []
    ∧ (fetchDataApp [] (.error "down")).alerts = []
    ∧ (fetchDataTable [] (.error "down")).alerts ≠ []
    ∧ (fetchDataApp [rRent] (.ok (200, [rCoffeeJan]))).tableData = [rCoffeeJan] :=
  ⟨((C7_amended_load [] (.error "down")).1 "down" rfl).1,
   ((C7_amended_load [] (.error "down")).1 "down" rfl).2.1,
   ((C7_amended_load [] (.error "down")).1 "down" rfl).2.2.2.2,
   ((C7_amended_load [rRent] (.ok (200, [rCoffeeJan]))).2.1 [rCoffeeJan] rfl).1⟩

/-- Any string extended from the `Error: ` prefix starts with `Error:`. -/
theorem startsWith_error_append (m : String) :
    jsStartsWith ("Error: " ++ m) "Error:" = true := by
  rw [jsStartsWith]
  have h1 : ("Error: " ++ m).toList
      = 'E' :: 'r' :: 'r' :: 'o' :: 'r' :: ':' :: ' ' :: m.toList := by
    show ("Error: " ++ m).data = _
    rw [String.data_append]
    rfl
  have h2 : ("Error:" : String).toList = ['E', 'r', 'r', 'o', 'r', ':'] := by decide
  rw [h1, h2]
  simp [startsWithCL]

/-- C9: the chat relay client never raises — on success it returns exactly the
service's response text, and on any transport or service error it returns a
message carrying the distinguishing `Error:` prefix. -/
theorem C9_ask_total :
    (∀ r : ChatSuccess, generateResponse (.ok r) = r.response)
    ∧ (∀ e : ChatFailure, jsStartsWith (generateResponse (.error e)) "Error:" = true) := by
  constructor
  · intro r
    rfl
  · intro e
    simp only [generateResponse]
    exact startsWith_error_append _

/-- C10: a reply is rendered in the error style exactly when it starts with the
literal `Error:` prefix; every failure reply of the relay client is therefore
classified as an error, and so is a legitimate answer that happens to begin
with `Error:`, while other answers render as normal bot messages. -/
theorem C10_error_style :
    (∀ s : String, classifyResponse s = "error" ↔ jsStartsWith s "Error:" = true)
    ∧ (∀ e : ChatFailure, classifyResponse (generateResponse (.error e)) = "error")
    ∧ classifyResponse "Error: your balance was 500 last month" = "error"
    ∧ classifyResponse "Your balance is fine" = "bot" := by
  refine ⟨?_, ?_, by decide, by decide⟩
  · intro s
    rw [classifyResponse]
    by_cases hs : jsStartsWith s "Error:" = true
    · rw [if_pos hs]
      simp [hs]
    · rw [if_neg hs]
      constructor
      · intro h
        exact absurd h (by decide)
      · intro h
        exact absurd h hs
  · intro e
    have hs : jsStartsWith (generateResponse (.error e)) "Error:" = true := by
      simp only [generateResponse]
      exact startsWith_error_append _
    rw [classifyResponse, if_pos hs]

/-- The gauge's reduce computes the sum of the absolute parsed amounts of the
negative-amount records. -/
theorem totalSpent_eq_sum (txs : List Record) :
    totalSpent txs
      = ((txs.filter isNegTx).map (fun t => |(parseFloatVal t.Amount).getD 0|)).sum := by
  rw [totalSpent, foldl_add_eq_sum]
  exact zero_add _

/-- With a positive limit the gauge percentage is the plain rational formula. -/
theorem percentageOf_pos (spent limit : ℚ) (h : 0 < limit) :
    percentageOf spent limit = .fin (min (spent / limit * 100) 100) := by
  rw [percentageOf, jsDivNum, if_neg (ne_of_gt h)]
  rfl

/-- Threshold characterization of the gauge color on a finite percentage. -/
theorem getColor_fin (p : ℚ) :
    (getColor (.fin p) = "#ef4444" ↔ 90 ≤ p)
    ∧ (getColor (.fin p) = "#f97316" ↔ 75 ≤ p ∧ p < 90)
    ∧ (getColor (.fin p) = "#22c55e" ↔ p < 75) := by
  rw [getColor]
  by_cases h90 : (90 : ℚ) ≤ p
  · rw [if_pos (by simpa [jsGeC] using h90)]
    exact ⟨⟨fun _ => h90, fun _ => rfl⟩,
      ⟨fun h => absurd h (by decide), fun h => absurd h90 (not_le.mpr h.2)⟩,
      ⟨fun h => absurd h (by decide),
       fun h => absurd h90 (not_le.mpr (h.trans_le (by norm_num)))⟩⟩
  · rw [if_neg (by simpa [jsGeC] using h90)]
    by_cases h75 : (75 : ℚ) ≤ p
    · rw [if_pos (by simpa [jsGeC] using h75)]
      exact ⟨⟨fun h => absurd h (by decide), fun h => absurd h h90⟩,
        ⟨fun _ => ⟨h75, not_le.mp h90⟩, fun _ => rfl⟩,
        ⟨fun h => absurd h (by decide), fun h => absurd h75 (not_le.mpr h)⟩⟩
    · rw [if_neg (by simpa [jsGeC] using h75)]
      exact ⟨⟨fun h => absurd h (by decide), fun h => absurd h h90⟩,
        ⟨fun h => absurd h (by decide), fun h => absurd h.1 h75⟩,
        ⟨fun _ => not_le.mp h75, fun _ => rfl⟩⟩

/-- C8: the gauge's spent figure is the sum of the absolute values of the
negative amounts; with a positive limit the displayed percentage is
`min(spent / limit * 100, 100)` with the red / orange / green thresholds at 90
and 75; with a zero limit and positive spending the display caps at 100 and
shows red; and the spec's two numeric examples hold. -/
theorem C8_spending_gauge (txs : List Record) (limit : ℚ) :
    totalSpent txs
      = ((txs.filter isNegTx).map (fun t => |(parseFloatVal t.Amount).getD 0|)).sum
    ∧ (0 < limit →
        percentageOf (totalSpent txs) limit
          = .fin (min (totalSpent txs / limit * 100) 100)
        ∧ (getColor (percentageOf (totalSpent txs) limit) = "#ef4444"
            ↔ 90 ≤ min (totalSpent txs / limit * 100) 100)
        ∧ (getColor (percentageOf (totalSpent txs) limit) = "#f97316"
            ↔ 75 ≤ min (totalSpent txs / limit * 100) 100
              ∧ min (totalSpent txs / limit * 100) 100 < 90)
        ∧ (getColor (percentageOf (totalSpent txs) limit) = "#22c55e"
            ↔ min (totalSpent txs / limit * 100) 100 < 75))
    ∧ (limit = 0 → 0 < totalSpent txs →
        percentageOf (totalSpent txs) limit = .fin 100
        ∧ getColor (percentageOf (totalSpent txs) limit) = "#ef4444")
    ∧ totalSpent gaugeTx1 = 300
    ∧ percentageOf (totalSpent gaugeTx1) 1200 = .fin 25
    ∧ getColor (percentageOf (totalSpent gaugeTx1) 1200) = "#22c55e"
    ∧ totalSpent gaugeTx2 = 1100
    ∧ percentageOf (totalSpent gaugeTx2) 1200 = .fin (275 / 3)
    ∧ getColor (percentageOf (totalSpent gaugeTx2) 1200) = "#ef4444" := by
  have hm1 : (gaugeTx1.filter isNegTx).map (fun t => |(parseFloatVal t.Amount).getD 0|)
      = [100, 200] := by decide
  have hm2 : (gaugeTx2.filter isNegTx).map (fun t => |(parseFloatVal t.Amount).getD 0|)
      = [1100] := by decide
  have ht1 : totalSpent gaugeTx1 = 300 := by
    rw [totalSpent_eq_sum, hm1]
    norm_num
  have ht2 : totalSpent gaugeTx2 = 1100 := by
    rw [totalSpent_eq_sum, hm2]
    norm_num
  have hv1 : (300 : ℚ) / 1200 * 100 = 25 := by norm_num
  have hv2 : (1100 : ℚ) / 1200 * 100 = 275 / 3 := by norm_num
  refine ⟨totalSpent_eq_sum txs, ?_, ?_, ht1, ?_, ?_, ht2, ?_, ?_⟩
  · intro hpos
    rw [percentageOf_pos _ _ hpos]
    exact ⟨rfl, (getColor_fin _).1, (getColor_fin _).2.1, (getColor_fin _).2.2⟩
  · rintro rfl hspent
    have hp : percentageOf (totalSpent txs) 0 = .fin 100 := by
      rw [percentageOf, jsDivNum, if_pos rfl, if_neg (ne_of_gt hspent), if_pos hspent]
      rfl
    refine ⟨hp, ?_⟩
    rw [hp]
    exact (getColor_fin 100).1.mpr (by norm_num)
  · rw [ht1, percentageOf_pos _ _ (by norm_num), hv1,
      min_eq_left (by norm_num : (25 : ℚ) ≤ 100)]
  · rw [ht1, percentageOf_pos _ _ (by norm_num), hv1,
      min_eq_left (by norm_num : (25 : ℚ) ≤ 100)]
    exact (getColor_fin 25).2.2.mpr (by norm_num)
  · rw [ht2, percentageOf_pos _ _ (by norm_num), hv2,
      min_eq_left (by norm_num : (275 : ℚ) / 3 ≤ 100)]
  · rw [ht2, percentageOf_pos _ _ (by norm_num), hv2,
      min_eq_left (by norm_num : (275 : ℚ) / 3 ≤ 100)]
    exact (getColor_fin (275 / 3)).1.mpr (by norm_num)

/-- Witness for C8: the percentage formula at the concrete positive limit 1200
and the capped red display at limit 0. -/
theorem C8_witness :
    percentageOf (totalSpent gaugeTx1) 1200
      = .fin (min (totalSpent gaugeTx1 / 1200 * 100) 100)
    ∧ percentageOf (totalSpent gaugeTx1) 0 = .fin 100 :=
  ⟨((C8_spending_gauge gaugeTx1 1200).2.1 (by decide)).1,
   ((C8_spending_gauge gaugeTx1 0).2.2.1 rfl
      (lt_of_lt_of_eq (by decide : (0 : ℚ) < 300)
        (C8_spending_gauge gaugeTx1 0).2.2.2.1.symm)).1⟩

/-- Keys of the totals table after one assignment: the key list is unchanged
when the key already exists, else the key is appended. -/
theorem keys_bumpTotal (k : String) (a : Option ℚ) :
    ∀ tot : List (String × Option ℚ),
      (bumpTotal k a tot).map Prod.fst
        = if k ∈ tot.map Prod.fst then tot.map Prod.fst
          else tot.map Prod.fst ++ [k] := by
  intro tot
  induction tot with
  | nil => simp [bumpTotal]
  | cons p t ih =>
    obtain ⟨k', v⟩ := p
    rw [bumpTotal]
    by_cases h : k' = k
    · subst h
      simp
    · rw [if_neg h]
      simp only [List.map_cons]
      rw [ih]
      by_cases hk : k ∈ t.map Prod.fst
      · rw [if_pos hk, if_pos (List.mem_cons_of_mem _ hk)]
      · rw [if_neg hk, if_neg ?_]
        · rfl
        · intro hc
          rcases List.mem_cons.mp hc with hc' | hc'
          · exact h hc'.symm
          · exact hk hc'

/-- `Math.abs` of a non-`NaN` number is its absolute value. -/
theorem jsAbsNum_of_isSome {o : Option ℚ} (h : o.isSome = true) :
    jsAbsNum o = some |o.getD 0| := by
  cases o with
  | none => simp at h
  | some q => rfl

/-- A numeric assignment into an all-numeric totals table keeps every stored
total numeric. -/
theorem bumpTotal_isSome (k : String) (x : ℚ) :
    ∀ tot : List (String × Option ℚ),
      (∀ p ∈ tot, (p.2).isSome = true) →
      ∀ p ∈ bumpTotal k (some x) tot, (p.2).isSome = true := by
  intro tot
  induction tot with
  | nil =>
    intro _ p hp
    rcases List.mem_singleton.mp hp with rfl
    rfl
  | cons q t ih =>
    obtain ⟨k', v⟩ := q
    intro hv p hp
    rw [bumpTotal] at hp
    by_cases h : k' = k
    · rw [if_pos h] at hp
      rcases List.mem_cons.mp hp with rfl | hp'
      · rfl
      · exact hv p (List.mem_cons_of_mem _ hp')
    · rw [if_neg h] at hp
      rcases List.mem_cons.mp hp with rfl | hp'
      · exact hv (k', v) (List.mem_cons_self _ _)
      · exact ih (fun r hr => hv r (List.mem_cons_of_mem _ hr)) p hp'

/-- A numeric assignment into an all-numeric totals table raises the sum of the
stored totals by exactly the assigned magnitude. -/
theorem bumpTotal_valsSum (k : String) (x : ℚ) :
    ∀ tot : List (String × Option ℚ),
      (∀ p ∈ tot, (p.2).isSome = true) →
      valsSum (bumpTotal k (some x) tot) = valsSum tot + x := by
  intro tot
  induction tot with
  | nil =>
    intro _
    simp [bumpTotal, valsSum, addAbs, jsOrZero]
  | cons q t ih =>
    obtain ⟨k', v⟩ := q
    intro hv
    have hsome : v.isSome = true := hv (k', v) (List.mem_cons_self _ _)
    obtain ⟨qv, rfl⟩ : ∃ qv, v = some qv := by
      cases v with
      | none => simp at hsome
      | some qv => exact ⟨qv, rfl⟩
    rw [bumpTotal]
    by_cases h : k' = k
    · rw [if_pos h]
      simp [valsSum, addAbs, jsOrZero]
      ring
    · rw [if_neg h]
      have := ih (fun r hr => hv r (List.mem_cons_of_mem _ hr))
      simp only [valsSum, List.map_cons, List.sum_cons] at this ⊢
      rw [this]
      ring

/-- Keys produced by the aggregation fold: the first-seen insertion of the
qualifying category keys into the initial key list. -/
theorem keys_foldl_aggStep (txs : List Record) :
    ∀ tot : List (String × Option ℚ),
      (txs.foldl aggStep tot).map Prod.fst
        = ((txs.filter aggregates).map (fun t => categoryKey t.Category)).foldl
            (fun acc x => if x ∈ acc then acc else acc ++ [x]) (tot.map Prod.fst) := by
  induction txs with
  | nil => intro tot; rfl
  | cons t ts ih =>
    intro tot
    rw [List.foldl_cons, List.filter_cons]
    by_cases h : aggregates t = true
    · have hstep : aggStep tot t
          = bumpTotal (categoryKey t.Category) (jsAbsNum (jsToNumber t.Amount)) tot := by
        rw [aggStep, if_pos h]
      rw [if_pos h, hstep, ih, List.map_cons, List.foldl_cons,
        keys_bumpTotal (categoryKey t.Category) (jsAbsNum (jsToNumber t.Amount)) tot]
    · have hstep : aggStep tot t = tot := by
        rw [aggStep, if_neg h]
      rw [if_neg h, hstep, ih]

/-- Totals produced by the aggregation fold over numeric amounts: every stored
total stays numeric and their sum grows by the qualifying magnitudes. -/
theorem sum_foldl_aggStep (txs : List Record) :
    ∀ tot : List (String × Option ℚ),
      (∀ p ∈ tot, (p.2).isSome = true) →
      (∀ t ∈ txs, aggregates t = true → (jsToNumber t.Amount).isSome = true) →
      (∀ p ∈ txs.foldl aggStep tot, (p.2).isSome = true)
      ∧ valsSum (txs.foldl aggStep tot)
          = valsSum tot
            + ((txs.filter aggregates).map
                (fun t => |(jsToNumber t.Amount).getD 0|)).sum := by
  induction txs with
  | nil =>
    intro tot hv _
    exact ⟨hv, by simp [valsSum]⟩
  | cons t ts ih =>
    intro tot hv hnum
    rw [List.foldl_cons, List.filter_cons]
    by_cases h : aggregates t = true
    · have habs := jsAbsNum_of_isSome (hnum t (List.mem_cons_self t ts) h)
      have hstep : aggStep tot t
          = bumpTotal (categoryKey t.Category)
              (some |(jsToNumber t.Amount).getD 0|) tot := by
        rw [aggStep, if_pos h, habs]
      have hb1 := bumpTotal_isSome (categoryKey t.Category)
        |(jsToNumber t.Amount).getD 0| tot hv
      have hb2 := bumpTotal_valsSum (categoryKey t.Category)
        |(jsToNumber t.Amount).getD 0| tot hv
      have hrec := ih _ hb1 (fun r hr ha => hnum r (List.mem_cons_of_mem t hr) ha)
      rw [hstep]
      refine ⟨hrec.1, ?_⟩
      rw [hrec.2, hb2, if_pos h, List.map_cons, List.sum_cons]
      ring
    · have hstep : aggStep tot t = tot := by
        rw [aggStep, if_neg h]
      have hrec := ih tot hv (fun r hr ha => hnum r (List.mem_cons_of_mem t hr) ha)
      rw [hstep, if_neg h]
      exact hrec

/-- Membership after folding first-seen insertions. -/
theorem foldl_ins_mem (l : List String) :
    ∀ (acc : List String) (x : String),
      (x ∈ l.foldl (fun acc x => if x ∈ acc then acc else acc ++ [x]) acc
        ↔ x ∈ acc ∨ x ∈ l) := by
  induction l with
  | nil => intro acc x; simp
  | cons a t ih =>
    intro acc x
    rw [List.foldl_cons]
    by_cases h : a ∈ acc
    · rw [if_pos h, ih]
      constructor
      · rintro (hx | hx)
        · exact Or.inl hx
        · exact Or.inr (List.mem_cons_of_mem a hx)
      · rintro (hx | hx)
        · exact Or.inl hx
        · rcases List.mem_cons.mp hx with rfl | hx'
          · exact Or.inl h
          · exact Or.inr hx'
    · rw [if_neg h, ih]
      constructor
      · rintro (hx | hx)
        · rcases List.mem_append.mp hx with hx' | hx'
          · exact Or.inl hx'
          · exact Or.inr (List.mem_cons.mpr (Or.inl (List.mem_singleton.mp hx')))
        · exact Or.inr (List.mem_cons_of_mem a hx)
      · rintro (hx | hx)
        · exact Or.inl (List.mem_append.mpr (Or.inl hx))
        · rcases List.mem_cons.mp hx with rfl | hx'
          · exact Or.inl (List.mem_append.mpr (Or.inr (List.mem_singleton.mpr rfl)))
          · exact Or.inr hx'

/-- Folding first-seen insertions preserves distinctness of the key list. -/
theorem foldl_ins_nodup (l : List String) :
    ∀ acc : List String, acc.Nodup →
      (l.foldl (fun acc x => if x ∈ acc then acc else acc ++ [x]) acc).Nodup := by
  induction l with
  | nil => intro acc h; exact h
  | cons a t ih =>
    intro acc h
    rw [List.foldl_cons]
    by_cases ha : a ∈ acc
    · rw [if_pos ha]
      exact ih acc h
    · rw [if_neg ha]
      exact ih _ (h.append (List.nodup_singleton a) (List.disjoint_singleton.mpr ha))

/-- The first-seen dedup has the length of the ordinary dedup: the number of
distinct values. -/
theorem firstSeen_length_eq_dedup (l : List String) :
    (firstSeen l).length = l.dedup.length := by
  have hnd : (firstSeen l).Nodup := foldl_ins_nodup l [] List.nodup_nil
  have hmem : ∀ x, x ∈ firstSeen l ↔ x ∈ l := by
    intro x
    rw [firstSeen, foldl_ins_mem]
    simp
  have hfin : (firstSeen l).toFinset = l.toFinset := by
    ext x
    simp only [List.mem_toFinset]
    exact hmem x
  calc (firstSeen l).length
      = (firstSeen l).dedup.length := by rw [hnd.dedup]
    _ = (firstSeen l).toFinset.card := (List.card_toFinset _).symm
    _ = l.toFinset.card := by rw [hfin]
    _ = l.dedup.length := List.card_toFinset _

/-- Reading a position below the bound out of an indexed tabulation. -/
theorem range_map_getD (n i : ℕ) (f : ℕ → String) (h : i < n) :
    ((List.range n).map f).getD i "" = f i := by
  rw [List.getD_eq_getElem?_getD, List.getElem?_map, List.getElem?_range h]
  rfl

/-- Mapping a key projection commutes with stable insertion under a key-based
comparison. -/
theorem map_insertLe {α β : Type} (f : α → β) (le : β → β → Bool) (a : α) :
    ∀ l : List α,
      (insertLe (fun x y => le (f x) (f y)) a l).map f
        = insertLe le (f a) (l.map f) := by
  intro l
  induction l with
  | nil => rfl
  | cons b t ih =>
    rw [insertLe, List.map_cons, insertLe]
    by_cases h : le (f a) (f b) = true
    · rw [if_pos h, if_pos h]
      rfl
    · rw [if_neg h, if_neg h, List.map_cons, ih]

/-- Mapping a key projection commutes with the stable sort under a key-based
comparison. -/
theorem map_stableSort {α β : Type} (f : α → β) (le : β → β → Bool) :
    ∀ l : List α,
      (stableSort (fun x y => le (f x) (f y)) l).map f
        = stableSort le (l.map f) := by
  intro l
  induction l with
  | nil => rfl
  | cons a t ih =>
    simp only [stableSort, List.map_cons]
    rw [map_insertLe, ih]

/-- Property-enumeration order is a permutation of the totals table. -/
theorem propertyOrder_perm (tot : List (String × Option ℚ)) :
    (propertyOrder tot).Perm tot := by
  rw [propertyOrder]
  exact ((stableSort_perm _ _).append (List.Perm.refl _)).trans
    (List.filter_append_perm _ tot)

/-- Enumeration order of a label list is a permutation of it. -/
theorem jsEnumOrder_perm (l : List String) : (jsEnumOrder l).Perm l := by
  rw [jsEnumOrder]
  exact ((stableSort_perm _ _).append (List.Perm.refl _)).trans
    (List.filter_append_perm _ l)

/-- The keys of the property-ordered totals table are the enumeration order of
its key list. -/
theorem propertyOrder_map_fst (tot : List (String × Option ℚ)) :
    (propertyOrder tot).map Prod.fst = jsEnumOrder (tot.map Prod.fst) := by
  rw [propertyOrder, jsEnumOrder, List.map_append]
  congr 1
  · rw [map_stableSort Prod.fst arrIdxLe]
    congr 1
    rw [List.filter_map]
    rfl
  · rw [List.filter_map]
    rfl

/-- With no array-index-like label, enumeration order is the given order. -/
theorem jsEnumOrder_of_no_index {l : List String}
    (h : ∀ s ∈ l, isArrayIndex s = false) : jsEnumOrder l = l := by
  rw [jsEnumOrder]
  have h1 : l.filter isArrayIndex = [] := by
    rw [List.filter_eq_nil_iff]
    intro a ha
    simp [h a ha]
  have h2 : l.filter (fun s => !isArrayIndex s) = l := by
    rw [List.filter_eq_self]
    intro a ha
    rw [h a ha]
    rfl
  rw [h1, h2]
  rfl

/-- Counterexample for C1 as stated: `Object.keys` hoists the array-index-like
free-text category `"2"` ahead of the earlier-seen category `"b"`, so the
labels are not in first-seen order. -/
theorem C1_counterexample :
    (processData idxCatTx).labels = ["2", "b"]
    ∧ firstSeen (qualifyingKeys idxCatTx) = ["b", "2"]
    ∧ (processData idxCatTx).labels ≠ firstSeen (qualifyingKeys idxCatTx) := by
  exact ⟨by decide, by decide, by decide⟩

/-- C1 (amended): for a non-empty record list with numeric amounts, the
aggregator's labels are the distinct qualifying categories in JavaScript
property-enumeration order — array-index-like category keys first in ascending
numeric order, the rest in first-seen order, so plain first-seen order whenever
no category label is array-index-like; the label count is the number of
distinct qualifying categories, the per-category totals are all numeric and sum
to the total magnitude of the qualifying records, and each label position i
gets the palette color at i mod N. -/
theorem C1_category_aggregator (txs : List Record) (hne : txs ≠ [])
    (hnum : ∀ t ∈ txs, aggregates t = true → (jsToNumber t.Amount).isSome = true) :
    (processData txs).labels = jsEnumOrder (firstSeen (qualifyingKeys txs))
    ∧ ((∀ s ∈ qualifyingKeys txs, isArrayIndex s = false) →
        (processData txs).labels = firstSeen (qualifyingKeys txs))
    ∧ (processData txs).labels.length = (qualifyingKeys txs).dedup.length
    ∧ ((processData txs).data.map (fun v => v.getD 0)).sum
        = ((qualifying txs).map (fun t => |(jsToNumber t.Amount).getD 0|)).sum
    ∧ (∀ v ∈ (processData txs).data, v.isSome = true)
    ∧ (processData txs).colors.length = (processData txs).labels.length
    ∧ (∀ i, i < (processData txs).labels.length →
        (processData txs).colors.getD i "" = COLORS[i % COLORS.length]!) := by
  have hlen : ¬ txs.length = 0 := by
    simpa [List.length_eq_zero] using hne
  have hP : processData txs
      = ⟨(propertyOrder (categoryTotals txs)).map Prod.fst,
         (propertyOrder (categoryTotals txs)).map Prod.snd,
         (List.range ((propertyOrder (categoryTotals txs)).map Prod.fst).length).map
           (fun i => COLORS[i % COLORS.length]!)⟩ := by
    rw [processData, if_neg hlen]
  have hkeys : (categoryTotals txs).map Prod.fst = firstSeen (qualifyingKeys txs) := by
    rw [categoryTotals, keys_foldl_aggStep]
    rfl
  have hlab : (propertyOrder (categoryTotals txs)).map Prod.fst
      = jsEnumOrder (firstSeen (qualifyingKeys txs)) := by
    rw [propertyOrder_map_fst, hkeys]
  have hsum := sum_foldl_aggStep txs [] (by intro p hp; cases hp) hnum
  refine ⟨?_, ?_, ?_, ?_, ?_, ?_, ?_⟩
  · rw [hP]
    exact hlab
  · intro hno
    rw [hP]
    simp only
    rw [hlab]
    refine jsEnumOrder_of_no_index ?_
    intro s hs
    rw [firstSeen] at hs
    rcases (foldl_ins_mem (qualifyingKeys txs) [] s).mp hs with h0 | h0
    · cases h0
    · exact hno s h0
  · rw [hP]
    simp only
    rw [List.length_map, (propertyOrder_perm (categoryTotals txs)).length_eq,
      ← List.length_map (categoryTotals txs) Prod.fst, hkeys,
      firstSeen_length_eq_dedup]
  · rw [hP]
    simp only
    rw [List.map_map]
    show valsSum (propertyOrder (categoryTotals txs)) = _
    have hps : valsSum (propertyOrder (categoryTotals txs))
        = valsSum (categoryTotals txs) := by
      simp only [valsSum]
      exact ((propertyOrder_perm (categoryTotals txs)).map _).sum_eq
    rw [hps, categoryTotals, hsum.2]
    exact zero_add _
  · rw [hP]
    simp only
    intro v hv
    rcases List.mem_map.mp hv with ⟨p, hp, rfl⟩
    refine hsum.1 p ?_
    have hp' : p ∈ categoryTotals txs :=
      (propertyOrder_perm (categoryTotals txs)).mem_iff.mp hp
    rw [categoryTotals] at hp'
    exact hp'
  · rw [hP]
    simp [List.length_map, List.length_range]
  · rw [hP]
    simp only
    intro i hi
    exact range_map_getD _ i _ hi

/-- Witness for C1 (amended) at a concrete non-empty list with numeric amounts
and no array-index-like category. -/
theorem C1_witness :
    (processData gaugeTx1).labels = jsEnumOrder (firstSeen (qualifyingKeys gaugeTx1))
    ∧ (processData gaugeTx1).labels = firstSeen (qualifyingKeys gaugeTx1) :=
  ⟨(C1_category_aggregator gaugeTx1 (by decide) (by decide)).1,
   (C1_category_aggregator gaugeTx1 (by decide) (by decide)).2.1 (by decide)⟩
